import Mathlib

/-!
Verification of the temporal receptive-field estimation core of this
repository against its specification.

The estimation core itself (`receptive_field.py`, `time_delaying_ridge.py`)
ships only through its test suite in this tree, so its operations are
modelled here from the specification (delay embedding, delay/slice utilities,
the fast correlation engine, the regularization builder, the time-delaying
ridge estimator and the receptive-field model), each over exact rational
arithmetic; floating-point tolerances in the specification become exact
equalities over `ℚ`.  The FreeSurfer surface reader (`surface.py`) is present
in the tree and is embedded directly from its source.
-/

namespace MneRF

open Matrix

/-- Modelled from the spec: a single-channel signal is a function `ℤ → ℚ`
together with a sample count `n`; only values at `0 ≤ t < n` are meaningful.
`xe` is the signal extended by zero outside the valid sample range, the
implicit representation used by the fast (non-materializing) path. -/
def xe (n : ℕ) (f : ℤ → ℚ) (t : ℤ) : ℚ :=
  if 0 ≤ t ∧ t < (n : ℤ) then f t else 0

/-- Modelled from the spec (§4.1 Delay Embedding): entry at sample `t` of the
delay-`d` slice of the embedded tensor for one channel: the channel shifted by
`d` samples, with the vacated region taking the fill value `fill` (zero or the
per-channel mean, configurable). -/
def delayedEntry (n : ℕ) (f : ℤ → ℚ) (fill : ℚ) (d t : ℤ) : ℚ :=
  if 0 ≤ t - d ∧ t - d < (n : ℤ) then f (t - d) else fill

/-- Modelled from the spec (§4.2): `_times_to_delays` returns the inclusive
integer range `round(tmin*sfreq) .. round(tmax*sfreq)`, here as its two
bounds. -/
def timesToDelayBounds (tmin tmax sfreq : ℚ) : ℤ × ℤ :=
  (round (tmin * sfreq), round (tmax * sfreq))

/-- Modelled from the spec (§4.2): the ordered contiguous ascending run of
delays produced by `_times_to_delays`. -/
def timesToDelays (tmin tmax sfreq : ℚ) : List ℤ :=
  (List.range ((timesToDelayBounds tmin tmax sfreq).2 + 1 -
      (timesToDelayBounds tmin tmax sfreq).1).toNat).map
    (fun k : ℕ => (timesToDelayBounds tmin tmax sfreq).1 + (k : ℤ))

/-- Modelled from the spec (§4.2): `_delays_to_slice` drops as many leading
samples as the maximum positive delay and as many trailing samples as the
magnitude of the minimum negative delay.  Returned as
(start index, number of samples dropped from the end). -/
def delaysToSlice (delays : List ℤ) : ℤ × ℤ :=
  (max (delays.getLastD 0) 0, max (-(delays.headD 0)) 0)

/-- An entry of the delayed tensor at (sample `t`, delay `d`) is synthetic
boundary fill exactly when the shifted index leaves the valid sample range. -/
def isBoundaryFill (n : ℕ) (d t : ℤ) : Prop :=
  ¬(0 ≤ t - d ∧ t - d < (n : ℤ))

instance (n : ℕ) (d t : ℤ) : Decidable (isBoundaryFill n d t) := by
  unfold isBoundaryFill
  infer_instance

/-- Modelled from the spec: the dot-product of two delayed columns of the
explicitly embedded design matrix (delays `d1`, `d2`), over all samples. -/
def corrEmbedXX (n : ℕ) (f g : ℤ → ℚ) (d1 d2 : ℤ) : ℚ :=
  ∑ t ∈ Finset.range n, xe n f ((t : ℤ) - d1) * xe n g ((t : ℤ) - d2)

/-- Modelled from the spec: the "ideal" Toeplitz block value — the unshifted
cross-correlation of two channels at integer lag `lag`. -/
def autocorrLag (n : ℕ) (f g : ℤ → ℚ) (lag : ℤ) : ℚ :=
  ∑ s ∈ Finset.range n, f s * xe n g ((s : ℤ) - lag)

/-- Modelled from the spec: boundary terms of a Toeplitz block contributed by
samples that fall off the front of the signal once shifted by delay `d1`. -/
def edgeLowCorrection (n : ℕ) (f g : ℤ → ℚ) (d1 lag : ℤ) : ℚ :=
  ∑ s ∈ (Finset.range n).filter (fun s : ℕ => (s : ℤ) + d1 < 0),
    f s * xe n g ((s : ℤ) - lag)

/-- Modelled from the spec: boundary terms of a Toeplitz block contributed by
samples that fall off the end of the signal once shifted by delay `d1`. -/
def edgeHighCorrection (n : ℕ) (f g : ℤ → ℚ) (d1 lag : ℤ) : ℚ :=
  ∑ s ∈ (Finset.range n).filter (fun s : ℕ => (n : ℤ) ≤ (s : ℤ) + d1),
    f s * xe n g ((s : ℤ) - lag)

/-- Modelled from the spec: one block entry of the fast engine's `x_xt` —
ideal Toeplitz value at lag `d2 - d1` minus the two boundary corrections. -/
def corrFastXX (n : ℕ) (f g : ℤ → ℚ) (d1 d2 : ℤ) : ℚ :=
  autocorrLag n f g (d2 - d1) - edgeLowCorrection n f g d1 (d2 - d1) -
    edgeHighCorrection n f g d1 (d2 - d1)

/-- Modelled from the spec: the dot-product of a delayed column of the
embedded design with a response channel. -/
def corrEmbedXY (n : ℕ) (f y : ℤ → ℚ) (d1 : ℤ) : ℚ :=
  ∑ t ∈ Finset.range n, xe n f ((t : ℤ) - d1) * y t

/-- Modelled from the spec: the fast engine's `x_yt` entry — the unshifted
cross-correlation of channel and response at lag `d1` ("built the same way
per delay"). -/
def corrFastXY (n : ℕ) (f y : ℤ → ℚ) (d1 : ℤ) : ℚ :=
  ∑ s ∈ Finset.range n, f s * xe n y ((s : ℤ) + d1)

/-- Number of delays in the half-open integer range `[smin, smax + 1)`. -/
def nDelays (smin smax : ℤ) : ℕ := (smax + 1 - smin).toNat

/-- Modelled from the spec: the fast engine's full `x_xt` output, indexed by
(channel, delay-index) pairs; the delay at index `k` is `smin + k`. -/
def computeCorrsXXFast (n c : ℕ) (X : Fin c → ℤ → ℚ) (smin smax : ℤ) :
    Matrix (Fin c × Fin (nDelays smin smax)) (Fin c × Fin (nDelays smin smax)) ℚ :=
  fun p q => corrFastXX n (X p.1) (X q.1) (smin + (p.2 : ℤ)) (smin + (q.2 : ℤ))

/-- Modelled from the spec: the auto-covariance of the explicitly embedded
design matrix, same index layout as the fast output. -/
def computeCorrsXXEmbed (n c : ℕ) (X : Fin c → ℤ → ℚ) (smin smax : ℤ) :
    Matrix (Fin c × Fin (nDelays smin smax)) (Fin c × Fin (nDelays smin smax)) ℚ :=
  fun p q => corrEmbedXX n (X p.1) (X q.1) (smin + (p.2 : ℤ)) (smin + (q.2 : ℤ))

/-- Modelled from the spec: the fast engine's full `x_yt` output. -/
def computeCorrsXYFast (n c cy : ℕ) (X : Fin c → ℤ → ℚ) (y : Fin cy → ℤ → ℚ)
    (smin smax : ℤ) : Matrix (Fin c × Fin (nDelays smin smax)) (Fin cy) ℚ :=
  fun p o => corrFastXY n (X p.1) (y o) (smin + (p.2 : ℤ))

/-- Modelled from the spec: the cross-covariance of the explicitly embedded
design matrix with the response. -/
def computeCorrsXYEmbed (n c cy : ℕ) (X : Fin c → ℤ → ℚ) (y : Fin cy → ℤ → ℚ)
    (smin smax : ℤ) : Matrix (Fin c × Fin (nDelays smin smax)) (Fin cy) ℚ :=
  fun p o => corrEmbedXY n (X p.1) (y o) (smin + (p.2 : ℤ))

/-- First channel of the worked example in `test_time_delaying_fast_calc`:
`X = np.array([[1, 2, 3], [5, 7, 11]]).T`. -/
def testSignalA : ℤ → ℚ :=
  fun t => if t = 0 then 1 else if t = 1 then 2 else 3

/-- Second channel of the worked example in `test_time_delaying_fast_calc`. -/
def testSignalB : ℤ → ℚ :=
  fun t => if t = 0 then 5 else if t = 1 then 7 else 11

/-!
## Regularization Builder (`_compute_reg_neighbors`)

Modelled from the spec (§4.4): over the (channel × delay) coefficient space,
`ridge` contributes an identity block and `laplacian` the graph Laplacian of
a path graph (tridiagonal: interior diagonal 2 with endpoints 1, off-diagonal
-1), optionally normalized by degree.  The `direct` method uses the
closed-form Kronecker-structured construction; the `csgraph` method builds an
explicit path-graph adjacency matrix and computes its Laplacian generically
as `D - A` with `D` the diagonal of row sums.  The numeric inverse-square-root
degree weight used by normalization is abstracted as a function `isq`, applied
identically by both methods (the methods must agree for every such weight). -/
inductive RegType where
  | ridge
  | laplacian
deriving DecidableEq, Repr

inductive RegMethod where
  | direct
  | csgraph
deriving DecidableEq, Repr

/-- Adjacency matrix of the path graph on `n` vertices (csgraph method). -/
def pathAdj (n : ℕ) : Matrix (Fin n) (Fin n) ℚ :=
  fun i j => if (j : ℕ) = (i : ℕ) + 1 ∨ (i : ℕ) = (j : ℕ) + 1 then 1 else 0

/-- Vertex degree computed generically as a row sum of the adjacency. -/
def pathDegree (n : ℕ) (i : Fin n) : ℚ :=
  ∑ j, pathAdj n i j

/-- Generic graph Laplacian `L = D - A` (csgraph method). -/
def graphLaplacian (n : ℕ) : Matrix (Fin n) (Fin n) ℚ :=
  fun i j => (if i = j then pathDegree n i else 0) - pathAdj n i j

/-- Closed-form path-graph degree: endpoints 1, interior 2 (direct method). -/
def pathDegreeFormula (n : ℕ) (i : Fin n) : ℚ :=
  if n ≤ 1 then 0 else if (i : ℕ) = 0 ∨ (i : ℕ) = n - 1 then 1 else 2

/-- Closed-form tridiagonal path Laplacian (direct method). -/
def directLaplacian (n : ℕ) : Matrix (Fin n) (Fin n) ℚ :=
  fun i j => if i = j then pathDegreeFormula n i
    else if (j : ℕ) = (i : ℕ) + 1 ∨ (i : ℕ) = (j : ℕ) + 1 then -1 else 0

/-- Optional symmetric degree normalization with abstract weight `isq`. -/
def normalizeLap {n : ℕ} (normed : Bool) (isq : ℚ → ℚ) (degOf : Fin n → ℚ)
    (L : Matrix (Fin n) (Fin n) ℚ) : Matrix (Fin n) (Fin n) ℚ :=
  if normed then (fun i j => isq (degOf i) * L i j * isq (degOf j)) else L

/-- Per-axis regularization block: identity for `ridge`, a (possibly
normalized) path Laplacian for `laplacian`, computed closed-form by `direct`
and graph-generically by `csgraph`. -/
def axisRegMatrix (method : RegMethod) (n : ℕ) (rt : RegType) (normed : Bool)
    (isq : ℚ → ℚ) : Matrix (Fin n) (Fin n) ℚ :=
  match rt with
  | .ridge => 1
  | .laplacian =>
    match method with
    | .direct => normalizeLap normed isq (pathDegreeFormula n) (directLaplacian n)
    | .csgraph => normalizeLap normed isq (pathDegree n) (graphLaplacian n)

/-- Kronecker product over the (channel × delay) index layout. -/
def kron {m n : ℕ} (A : Matrix (Fin m) (Fin m) ℚ) (B : Matrix (Fin n) (Fin n) ℚ) :
    Matrix (Fin m × Fin n) (Fin m × Fin n) ℚ :=
  fun p q => A p.1 q.1 * B p.2 q.2

/-- Modelled from the spec (§4.4): `_compute_reg_neighbors` — the
`(channels * num_delays)²` regularization matrix, from a pair of
regularization tags for the (feature axis, delay axis). -/
def computeRegNeighbors (nChX nDel : ℕ) (regType : RegType × RegType)
    (method : RegMethod) (normed : Bool) (isq : ℚ → ℚ) :
    Matrix (Fin nChX × Fin nDel) (Fin nChX × Fin nDel) ℚ :=
  kron (axisRegMatrix method nChX regType.1 normed isq)
    (axisRegMatrix method nDel regType.2 normed isq)

/-- Exact rational inverse via determinant and adjugate; the zero matrix when
the determinant vanishes. -/
def qInv {m : Type} [Fintype m] [DecidableEq m] (A : Matrix m m ℚ) :
    Matrix m m ℚ :=
  (A.det)⁻¹ • A.adjugate

/-- Modelled from the spec: the explicitly embedded (zero-filled) design
matrix handed to the external-estimator path, samples × (channel, delay);
the delay at index `k` is `smin + k`, over the `ndel` delays of the range
`[smin, smin + ndel)`. -/
def designZero (n c ndel : ℕ) (X : Fin c → ℤ → ℚ) (smin : ℤ) :
    Matrix (Fin n) (Fin c × Fin ndel) ℚ :=
  fun t k => xe n (X k.1) ((t : ℤ) - (smin + (k.2 : ℤ)))

/-- Modelled from the spec: an unregularized least-squares fit (the external
estimator with zero penalty) solving the normal equations
`(AᵀA) w = Aᵀ Y` exactly. -/
def fitOLS {n : ℕ} {F G : Type} [Fintype F] [DecidableEq F]
    (A : Matrix (Fin n) F ℚ) (Y : Matrix (Fin n) G ℚ) :
    Matrix F G ℚ :=
  qInv (Aᵀ * A) * (Aᵀ * Y)

/-- Modelled from the spec: the Receptive Field Model's fitted forward
coefficients, flattened to (outputs × (features × delays)). -/
def rfCoefFlat (n c ndel T : ℕ) (X : Fin c → ℤ → ℚ) (smin : ℤ)
    (Y : Matrix (Fin n) (Fin T) ℚ) :
    Matrix (Fin T) (Fin c × Fin ndel) ℚ :=
  (fitOLS (designZero n c ndel X smin) Y)ᵀ

/-- Modelled from the spec: `patterns_` — the coefficients of the reverse
regression (response → embedded input), same shape as `rfCoefFlat`. -/
def rfPatternsFlat (n c ndel T : ℕ) (X : Fin c → ℤ → ℚ) (smin : ℤ)
    (Y : Matrix (Fin n) (Fin T) ℚ) :
    Matrix (Fin T) (Fin c × Fin ndel) ℚ :=
  fitOLS Y (designZero n c ndel X smin)

instance uniquePairIndex {a b : Type} [Unique a] [Unique b] :
    Unique (a × b) where
  default := (default, default)
  uniq p := Prod.ext (Unique.uniq _ p.1) (Unique.uniq _ p.2)

/-- Concrete instantiation for exercising the pattern-identity theorem:
one sample, one channel, one delay, one output, constant signal 1. -/
def witX : Fin 1 → ℤ → ℚ := fun _ _ => 1

/-- Concrete unit kernel for the same instantiation. -/
def witW : Matrix (Fin 1 × Fin 1) (Fin 1) ℚ := fun _ _ => 1

/-- The response generated by `witX` and `witW`. -/
def witY : Matrix (Fin 1) (Fin 1) ℚ := designZero 1 1 1 witX 0 * witW

/-!
## Receptive Field Model validation and the Time-Delaying Ridge estimator
-/
inductive RFError where
  | invalidArgument
deriving DecidableEq, Repr

inductive FitWarning where
  | singularMatrix
deriving DecidableEq, Repr

/-- The Receptive Field Model's constructor configuration. -/
structure RFModel where
  tmin : ℚ
  tmax : ℚ
  sfreq : ℚ
  featureNames : Option (List String)

/-- Modelled from the spec (§4.6) and the construction behavior exercised by
`test_receptive_field` (constructing `ReceptiveField(5, 4, 1)` succeeds and
only the subsequent `fit` raises): construction performs no validation. -/
def rfInit (tmin tmax sfreq : ℚ) (featureNames : Option (List String)) :
    Except RFError RFModel :=
  .ok ⟨tmin, tmax, sfreq, featureNames⟩

/-- Feature-name count mismatched with the channel count of X. -/
def featureNamesMismatch (names : Option (List String)) (nFeat : ℕ) : Bool :=
  match names with
  | some l => l.length != nFeat
  | none => false

/-- Modelled from the spec (§4.6): `fit` validates `tmin ≤ tmax`, matching
sample counts of X and y, and the feature-name count against X's channel
count, raising `InvalidArgument` otherwise; on success it returns the delay
bounds and the valid-sample slice (start, count dropped at the end). -/
def rfFit (m : RFModel) (nX nFeat nY : ℕ) :
    Except RFError (ℤ × ℤ × ℤ × ℤ) :=
  if m.tmax < m.tmin then .error .invalidArgument
  else if nX ≠ nY then .error .invalidArgument
  else if featureNamesMismatch m.featureNames nFeat then .error .invalidArgument
  else
    .ok ((timesToDelayBounds m.tmin m.tmax m.sfreq).1,
      (timesToDelayBounds m.tmin m.tmax m.sfreq).2,
      max (timesToDelayBounds m.tmin m.tmax m.sfreq).2 0,
      max (-(timesToDelayBounds m.tmin m.tmax m.sfreq).1) 0)

/-- Result of a Time-Delaying Ridge fit: the non-fatal diagnostics emitted
during solving and the stored coefficients. -/
structure TDRFit (c ndel T : ℕ) where
  warnings : List FitWarning
  coef : Matrix (Fin c × Fin ndel) (Fin T) ℚ
deriving DecidableEq

/-- Modelled from the spec (§6, §7): the general linear-solve collaborator —
for an invertible system the exact solution; for a singular system a
recoverable-singularity signal together with a best-effort solution (here the
adjugate-based generalized solve, which degenerates to zero). -/
def solveCollaborator {m : Type} [Fintype m] [DecidableEq m] {T : ℕ}
    (A : Matrix m m ℚ) (B : Matrix m (Fin T) ℚ) :
    List FitWarning × Matrix m (Fin T) ℚ :=
  if A.det = 0 then ([.singularMatrix], qInv A * B) else ([], qInv A * B)

/-- Modelled from the spec (§4.5, step 3): the normal-equations system
matrix — the auto-covariance of the embedded design (which the fast engine
reproduces exactly), plus the `alpha`-scaled regularization matrix, skipped
when `alpha = 0`. -/
def tdrSystem (n c ndel : ℕ) (X : Fin c → ℤ → ℚ) (smin : ℤ) (alpha : ℚ)
    (regTypeTags : List RegType) :
    Matrix (Fin c × Fin ndel) (Fin c × Fin ndel) ℚ :=
  if alpha = 0 then (designZero n c ndel X smin)ᵀ * designZero n c ndel X smin
  else (designZero n c ndel X smin)ᵀ * designZero n c ndel X smin +
    alpha • computeRegNeighbors c ndel
      (regTypeTags.headD .ridge, (regTypeTags.drop 1).headD .ridge)
      .direct false (fun q => q)

/-- Modelled from the spec (§4.5): `TimeDelayingRidge.fit` — validates the
regularization-type pair, computes `x_xt`/`x_yt`, and solves the regularized
normal equations through the linear-solve collaborator, storing its
diagnostics and coefficients. -/
def tdrFit (n c ndel T : ℕ) (X : Fin c → ℤ → ℚ)
    (Y : Matrix (Fin n) (Fin T) ℚ) (smin : ℤ) (alpha : ℚ)
    (regTypeTags : List RegType) : Except RFError (TDRFit c ndel T) :=
  if regTypeTags.length ≠ 2 then .error .invalidArgument
  else
    .ok ⟨(solveCollaborator (tdrSystem n c ndel X smin alpha regTypeTags)
        ((designZero n c ndel X smin)ᵀ * Y)).1,
      (solveCollaborator (tdrSystem n c ndel X smin alpha regTypeTags)
        ((designZero n c ndel X smin)ᵀ * Y)).2⟩

/-- Per-channel mean of the valid samples. -/
def meanSig (n : ℕ) (f : ℤ → ℚ) : ℚ :=
  (∑ t ∈ Finset.range n, f t) / n

/-- Modelled from the spec: the mean-filled embedded design matrix used when
fitting with an intercept. -/
def designMean (n c ndel : ℕ) (X : Fin c → ℤ → ℚ) (smin : ℤ) :
    Matrix (Fin n) (Fin c × Fin ndel) ℚ :=
  fun t k => delayedEntry n (X k.1) (meanSig n (X k.1)) (smin + (k.2 : ℤ)) t

/-- Column means of a design matrix (the accumulated means of the fast
path). -/
def colMean {n : ℕ} {F : Type} [Fintype F] (A : Matrix (Fin n) F ℚ) (j : F) :
    ℚ :=
  (∑ t, A t j) / n

/-- Column-centered design matrix (the external-estimator path). -/
def centerCols {n : ℕ} {F : Type} [Fintype F] (A : Matrix (Fin n) F ℚ) :
    Matrix (Fin n) F ℚ :=
  fun t j => A t j - colMean A j

/-- Mean of the response channel. -/
def vecMean (n : ℕ) (y : Fin n → ℚ) : ℚ :=
  (∑ t, y t) / n

/-- Centered response channel. -/
def centerVec {n : ℕ} (y : Fin n → ℚ) : Fin n → ℚ :=
  fun t => y t - vecMean n y

/-- Rank-one outer product of two vectors. -/
def outerQ {F : Type} (u v : F → ℚ) : Matrix F F ℚ :=
  fun i j => u i * v j

/-- Modelled from the spec (§4.6 external path): the coefficients fitted with
an intercept — ridge solve of the column-centered embedded design against the
centered response. -/
def wExt (n c ndel : ℕ) (X : Fin c → ℤ → ℚ) (y : Fin n → ℚ) (smin : ℤ)
    (alpha : ℚ) : (Fin c × Fin ndel) → ℚ :=
  qInv ((centerCols (designMean n c ndel X smin))ᵀ *
      centerCols (designMean n c ndel X smin) + alpha • 1) *ᵥ
    ((centerCols (designMean n c ndel X smin))ᵀ *ᵥ centerVec y)

/-- Modelled from the spec (§4.6): the fitted intercept
`mean(y) - mean(design) · w`. -/
def interceptExt (n c ndel : ℕ) (X : Fin c → ℤ → ℚ) (y : Fin n → ℚ)
    (smin : ℤ) (alpha : ℚ) : ℚ :=
  vecMean n y - ∑ j, colMean (designMean n c ndel X smin) j *
    wExt n c ndel X y smin alpha j

/-- Modelled from the spec (§4.5 step 4, fast path): the same coefficients
computed by centering `x_xt`/`x_yt` at the covariance level with accumulated
means, never materializing the centered design. -/
def wFast (n c ndel : ℕ) (X : Fin c → ℤ → ℚ) (y : Fin n → ℚ) (smin : ℤ)
    (alpha : ℚ) : (Fin c × Fin ndel) → ℚ :=
  qInv (((designMean n c ndel X smin)ᵀ * designMean n c ndel X smin -
      (n : ℚ) • outerQ (colMean (designMean n c ndel X smin))
        (colMean (designMean n c ndel X smin))) + alpha • 1) *ᵥ
    ((designMean n c ndel X smin)ᵀ *ᵥ y -
      (n : ℚ) • (vecMean n y • colMean (designMean n c ndel X smin)))

/-- Adding a constant offset to every sample of every channel. -/
def offsetSig {c : ℕ} (X : Fin c → ℤ → ℚ) (ofs : ℚ) : Fin c → ℤ → ℚ :=
  fun ch t => X ch t + ofs

/-- Concrete unit-delay-kernel instantiation for the offset-invariance
theorem: two samples, one channel, one delay at 0, response equal to the
input. -/
def witX9 : Fin 1 → ℤ → ℚ := fun _ t => if t = 0 then 1 else -1

/-- The matching response channel. -/
def witY9 : Fin 2 → ℚ := fun t => if t = 0 then 1 else -1

end MneRF

namespace MneSurface

inductive SurfaceError where
  | notImplementedError
  | valueError
  | truncated
deriving DecidableEq, Repr

/-- `fread3`: reads three bytes and combines them big-endian:
`(b1 << 16) + (b2 << 8) + b3`. -/
def fread3 (bs : List ℕ) : Option (ℕ × List ℕ) :=
  match bs with
  | b1 :: b2 :: b3 :: rest => some (b1 * 65536 + b2 * 256 + b3, rest)
  | _ => none

/-- `fobj.readline()` on a binary stream: consume bytes up to and including
the first newline (byte 10), or the whole remainder if none occurs. -/
def readLine (bs : List ℕ) : List ℕ :=
  match bs with
  | [] => []
  | b :: rest => if b = 10 then rest else readLine rest

/-- One big-endian `">i4"` word as a signed 32-bit integer. -/
def readInt4 (bs : List ℕ) : Option (ℤ × List ℕ) :=
  match bs with
  | b1 :: b2 :: b3 :: b4 :: rest =>
    let raw : ℕ := b1 * 16777216 + b2 * 65536 + b3 * 256 + b4
    some (if raw < 2147483648 then (raw : ℤ) else (raw : ℤ) - 4294967296, rest)
  | _ => none

/-- `k` big-endian 32-bit words, kept raw (used for the `">f4"` vertex
coordinates, whose float value `read_surface` never inspects). -/
def readWords (k : ℕ) (bs : List ℕ) : Option (List ℕ × List ℕ) :=
  match k with
  | 0 => some ([], bs)
  | k + 1 =>
    match bs with
    | b1 :: b2 :: b3 :: b4 :: rest =>
      match readWords k rest with
      | some (ws, rest') =>
        some ((b1 * 16777216 + b2 * 65536 + b3 * 256 + b4) :: ws, rest')
      | none => none
    | _ => none

/-- `k` signed `">i4"` words (used for the faces). -/
def readInts (k : ℕ) (bs : List ℕ) : Option (List ℤ × List ℕ) :=
  match k with
  | 0 => some ([], bs)
  | k + 1 =>
    match readInt4 bs with
    | some (v, rest) =>
      match readInts k rest with
      | some (vs, rest') => some (v :: vs, rest')
      | none => none
    | none => none

/-- Group a flat list into consecutive triples (the `.reshape(-1, 3)` of the
source); defined only when the length is a multiple of three. -/
def toTriples {α : Type} (l : List α) : List (α × α × α) :=
  match l with
  | a :: b :: c :: rest => (a, b, c) :: toTriples rest
  | _ => []

/-- `read_surface`: load a FreeSurfer surface mesh in triangular format.
Translated from `src/mne/surface.py` lines 234-251: read the 3-byte magic;
`16777215` (quadrangle format) raises `NotImplementedError`; any magic other
than `16777214` raises `ValueError`; otherwise skip the creation-stamp line
and the blank line, read `vnum` and `fnum` as `">i4"`, then `vnum * 3` float
words (vertex coordinates) and `fnum * 3` `">i4"` values (faces). -/
def read_surface (bs : List ℕ) :
    Except SurfaceError (List (ℕ × ℕ × ℕ) × List (ℤ × ℤ × ℤ)) :=
  match fread3 bs with
  | none => .error .truncated
  | some (magic, rest) =>
    if magic = 16777215 then .error .notImplementedError
    else if magic ≠ 16777214 then .error .valueError
    else
      let rest := readLine rest
      let rest := readLine rest
      match readInt4 rest with
      | none => .error .truncated
      | some (vnum, rest) =>
        match readInt4 rest with
        | none => .error .truncated
        | some (fnum, rest) =>
          if 0 ≤ vnum ∧ 0 ≤ fnum then
            match readWords (vnum.toNat * 3) rest with
            | none => .error .truncated
            | some (coords, rest) =>
              match readInts (fnum.toNat * 3) rest with
              | none => .error .truncated
              | some (faces, _) => .ok (toTriples coords, toTriples faces)
          else .error .truncated

end MneSurface

namespace MneRF

open Matrix

theorem xe_eq_delayedEntry (n : ℕ) (f : ℤ → ℚ) (d t : ℤ) :
    delayedEntry n f 0 d t = xe n f (t - d) := rfl

theorem xe_eq_zero {n : ℕ} {f : ℤ → ℚ} {t : ℤ} (h : t < 0 ∨ (n : ℤ) ≤ t) :
    xe n f t = 0 := by
  unfold xe
  rw [if_neg]
  omega

theorem mem_timesToDelays (tmin tmax sfreq : ℚ) (d : ℤ) :
    d ∈ timesToDelays tmin tmax sfreq ↔
      round (tmin * sfreq) ≤ d ∧ d ≤ round (tmax * sfreq) := by
  simp only [timesToDelays, timesToDelayBounds, List.mem_map, List.mem_range]
  constructor
  · rintro ⟨k, hk, rfl⟩
    omega
  · rintro ⟨h1, h2⟩
    exact ⟨(d - round (tmin * sfreq)).toNat, by omega, by omega⟩

theorem headD_timesToDelays (tmin tmax sfreq : ℚ)
    (h : round (tmin * sfreq) ≤ round (tmax * sfreq)) :
    (timesToDelays tmin tmax sfreq).headD 0 = round (tmin * sfreq) := by
  unfold timesToDelays timesToDelayBounds
  have hpos : (round (tmax * sfreq) + 1 - round (tmin * sfreq)).toNat =
      (round (tmax * sfreq) - round (tmin * sfreq)).toNat + 1 := by omega
  rw [hpos, List.range_succ_eq_map]
  simp

theorem getLast_range_map (a : ℤ) (k : ℕ) :
    ((List.range (k + 1)).map (fun j : ℕ => a + (j : ℤ))).getLastD 0 = a + k := by
  rw [List.range_succ, List.map_append]
  simp

theorem getLastD_timesToDelays (tmin tmax sfreq : ℚ)
    (h : round (tmin * sfreq) ≤ round (tmax * sfreq)) :
    (timesToDelays tmin tmax sfreq).getLastD 0 = round (tmax * sfreq) := by
  unfold timesToDelays timesToDelayBounds
  have hpos : (round (tmax * sfreq) + 1 - round (tmin * sfreq)).toNat =
      (round (tmax * sfreq) - round (tmin * sfreq)).toNat + 1 := by omega
  rw [hpos, getLast_range_map]
  omega

/-- **C2.** For every valid `(tmin, tmax, sfreq)` (the derived delay range is
nonempty), the sample range selected by
`delays_to_slice (times_to_delays tmin tmax sfreq)` contains exactly those
sample indices at which every delayed entry of the embedded tensor is free of
boundary fill: it excludes the first `max(max_delay, 0)` samples and the last
`max(-min_delay, 0)` samples and nothing else. -/
theorem delays_to_slice_selects_exactly_unfilled (tmin tmax sfreq : ℚ)
    (n : ℕ) (t : ℤ)
    (hvalid : round (tmin * sfreq) ≤ round (tmax * sfreq))
    (ht : 0 ≤ t ∧ t < (n : ℤ)) :
    ((delaysToSlice (timesToDelays tmin tmax sfreq)).1 ≤ t ∧
        t < (n : ℤ) - (delaysToSlice (timesToDelays tmin tmax sfreq)).2) ↔
      ∀ d ∈ timesToDelays tmin tmax sfreq, ¬ isBoundaryFill n d t := by
  unfold delaysToSlice
  rw [headD_timesToDelays tmin tmax sfreq hvalid,
    getLastD_timesToDelays tmin tmax sfreq hvalid]
  constructor
  · intro hsel d hd
    rw [mem_timesToDelays] at hd
    unfold isBoundaryFill
    omega
  · intro hall
    have h1 := hall (round (tmin * sfreq))
      ((mem_timesToDelays _ _ _ _).2 ⟨le_refl _, hvalid⟩)
    have h2 := hall (round (tmax * sfreq))
      ((mem_timesToDelays _ _ _ _).2 ⟨hvalid, le_refl _⟩)
    unfold isBoundaryFill at h1 h2
    omega

theorem delays_to_slice_selects_exactly_unfilled_witness :
    round ((-1 : ℚ) * 2) ≤ round ((1 : ℚ) * 2) ∧
      (0 ≤ (3 : ℤ) ∧ (3 : ℤ) < ((10 : ℕ) : ℤ)) ∧
      (((delaysToSlice (timesToDelays (-1) 1 2)).1 ≤ (3 : ℤ) ∧
          (3 : ℤ) < ((10 : ℕ) : ℤ) - (delaysToSlice (timesToDelays (-1) 1 2)).2) ↔
        ∀ d ∈ timesToDelays (-1) 1 2, ¬ isBoundaryFill 10 d 3) :=
  ⟨by norm_num [round_eq], ⟨by norm_num, by norm_num⟩,
    delays_to_slice_selects_exactly_unfilled (-1) 1 2 10 3
      (by norm_num [round_eq]) ⟨by norm_num, by norm_num⟩⟩

/-- **C4.** For every signal, fill value and every delay `d` in the inclusive
integer range `round(tmin*sfreq) .. round(tmax*sfreq)`, the delay-embedded
slice at `d` is: an unchanged copy of the signal when `d = 0`; the signal
shifted up when `d < 0` (rows `[0, n+d)` get `X[-d:]`, the last `|d|` rows
filled); and the signal shifted down when `d > 0` (rows `[d, n)` get
`X[:n-d]`, the first `d` rows filled). -/
theorem delay_embedding_shift_cases (n : ℕ) (f : ℤ → ℚ) (fill : ℚ)
    (tmin tmax sfreq : ℚ) (d : ℤ)
    (hd : d ∈ timesToDelays tmin tmax sfreq) :
    (d = 0 → ∀ t : ℤ, 0 ≤ t → t < (n : ℤ) →
        delayedEntry n f fill d t = f t) ∧
    (d < 0 →
      (∀ t : ℤ, 0 ≤ t → t < (n : ℤ) + d →
          delayedEntry n f fill d t = f (t - d)) ∧
      (∀ t : ℤ, (n : ℤ) + d ≤ t → t < (n : ℤ) →
          delayedEntry n f fill d t = fill)) ∧
    (0 < d →
      (∀ t : ℤ, d ≤ t → t < (n : ℤ) →
          delayedEntry n f fill d t = f (t - d)) ∧
      (∀ t : ℤ, 0 ≤ t → t < d →
          delayedEntry n f fill d t = fill)) := by
  refine ⟨?_, fun hneg => ⟨?_, ?_⟩, fun hpos => ⟨?_, ?_⟩⟩
  · intro h0 t ht1 ht2
    subst h0
    unfold delayedEntry
    rw [if_pos (by omega)]
    norm_num
  · intro t ht1 ht2
    unfold delayedEntry
    rw [if_pos (by omega)]
  · intro t ht1 ht2
    unfold delayedEntry
    rw [if_neg (by omega)]
  · intro t ht1 ht2
    unfold delayedEntry
    rw [if_pos (by omega)]
  · intro t ht1 ht2
    unfold delayedEntry
    rw [if_neg (by omega)]

theorem delay_embedding_shift_cases_witness :
    ((2 : ℤ) ∈ timesToDelays 1 2 1) ∧
      delayedEntry 5 (fun t => (t : ℚ)) 7 2 0 = 7 := by
  have hmem : (2 : ℤ) ∈ timesToDelays 1 2 1 :=
    (mem_timesToDelays 1 2 1 2).2 ⟨by norm_num [round_eq], by norm_num [round_eq]⟩
  exact ⟨hmem,
    ((delay_embedding_shift_cases 5 (fun t => (t : ℚ)) 7 1 2 1 2
      hmem).2.2 (by norm_num)).2 0 (by norm_num) (by norm_num)⟩

theorem xe_eq_self {n : ℕ} (f : ℤ → ℚ) {t : ℤ} (h0 : 0 ≤ t) (h1 : t < (n : ℤ)) :
    xe n f t = f t := by
  unfold xe
  exact if_pos ⟨h0, h1⟩

theorem range_cast_eq_Icc (n : ℕ) :
    (Finset.range n).map ⟨(Nat.cast : ℕ → ℤ), Nat.cast_injective⟩ =
      Finset.Icc (0 : ℤ) ((n : ℤ) - 1) := by
  ext u
  simp only [Finset.mem_map, Finset.mem_range, Finset.mem_Icc,
    Function.Embedding.coeFn_mk]
  constructor
  · rintro ⟨a, ha, rfl⟩
    omega
  · intro h
    exact ⟨u.toNat, by omega, by omega⟩

theorem sum_range_cast (n : ℕ) (h : ℤ → ℚ) :
    ∑ t ∈ Finset.range n, h (t : ℤ) =
      ∑ u ∈ Finset.Icc (0 : ℤ) ((n : ℤ) - 1), h u := by
  rw [← range_cast_eq_Icc, Finset.sum_map]
  rfl

theorem sum_range_filter_cast (n : ℕ) (p : ℤ → Prop) [DecidablePred p]
    (h : ℤ → ℚ) :
    ∑ t ∈ (Finset.range n).filter (fun t : ℕ => p (t : ℤ)), h (t : ℤ) =
      ∑ u ∈ (Finset.Icc (0 : ℤ) ((n : ℤ) - 1)).filter p, h u := by
  rw [← range_cast_eq_Icc, Finset.filter_map, Finset.sum_map]
  rfl

theorem sum_Icc_shift (f : ℤ → ℚ) (a b d : ℤ) :
    ∑ t ∈ Finset.Icc a b, f (t - d) =
      ∑ u ∈ Finset.Icc (a - d) (b - d), f u := by
  have hmap : Finset.Icc (a - d) (b - d) =
      (Finset.Icc a b).map (addRightEmbedding (-d)) := by
    rw [Finset.map_add_right_Icc]
    congr 1
  rw [hmap, Finset.sum_map]
  apply Finset.sum_congr rfl
  intro t _
  congr 1

theorem sum_Icc_trim (a b lo hi : ℤ) (F : ℤ → ℚ)
    (hv : ∀ u, a ≤ u → u ≤ b → (u < lo ∨ hi < u) → F u = 0) :
    ∑ u ∈ Finset.Icc a b, F u =
      ∑ u ∈ Finset.Icc (max a lo) (min b hi), F u := by
  rw [← Finset.sum_filter_add_sum_filter_not (Finset.Icc a b)
    (fun u => lo ≤ u ∧ u ≤ hi) F]
  have hz : ∑ u ∈ (Finset.Icc a b).filter (fun u => ¬(lo ≤ u ∧ u ≤ hi)), F u
      = 0 := by
    apply Finset.sum_eq_zero
    intro u hu
    simp only [Finset.mem_filter, Finset.mem_Icc] at hu
    exact hv u hu.1.1 hu.1.2 (by omega)
  rw [hz, add_zero]
  congr 1
  ext u
  simp only [Finset.mem_filter, Finset.mem_Icc]
  omega

theorem shift_trim (n : ℕ) (F : ℤ → ℚ) (d1 : ℤ)
    (hFz : ∀ u : ℤ, u < 0 ∨ (n : ℤ) ≤ u → F u = 0) :
    ∑ t ∈ Finset.range n, F ((t : ℤ) - d1) =
      ∑ u ∈ Finset.Icc (max (0 - d1) 0) (min ((n : ℤ) - 1 - d1) ((n : ℤ) - 1)),
        F u := by
  rw [sum_range_cast n (fun z => F (z - d1))]
  rw [sum_Icc_shift F 0 ((n : ℤ) - 1) d1]
  exact sum_Icc_trim (0 - d1) ((n : ℤ) - 1 - d1) 0 ((n : ℤ) - 1) F
    (fun u _ _ hu => hFz u (by omega))

theorem fast_filter_trim (n : ℕ) (F : ℤ → ℚ) (d1 : ℤ) :
    ((∑ t ∈ Finset.range n, F (t : ℤ)) -
        ∑ t ∈ (Finset.range n).filter (fun t : ℕ => (t : ℤ) + d1 < 0),
          F (t : ℤ)) -
      ∑ t ∈ (Finset.range n).filter (fun t : ℕ => (n : ℤ) ≤ (t : ℤ) + d1),
        F (t : ℤ) =
    ∑ u ∈ Finset.Icc (max (0 - d1) 0) (min ((n : ℤ) - 1 - d1) ((n : ℤ) - 1)),
      F u := by
  rw [sum_range_cast n F,
    sum_range_filter_cast n (fun u => u + d1 < 0) F,
    sum_range_filter_cast n (fun u => (n : ℤ) ≤ u + d1) F]
  have h1 : ∑ u ∈ Finset.Icc (0 : ℤ) ((n : ℤ) - 1), F u =
      (∑ u ∈ (Finset.Icc (0 : ℤ) ((n : ℤ) - 1)).filter
          (fun u => u + d1 < 0), F u) +
        ∑ u ∈ (Finset.Icc (0 : ℤ) ((n : ℤ) - 1)).filter
          (fun u => ¬(u + d1 < 0)), F u :=
    (Finset.sum_filter_add_sum_filter_not _ _ F).symm
  have h2 : ∑ u ∈ (Finset.Icc (0 : ℤ) ((n : ℤ) - 1)).filter
        (fun u => ¬(u + d1 < 0)), F u =
      (∑ u ∈ ((Finset.Icc (0 : ℤ) ((n : ℤ) - 1)).filter
            (fun u => ¬(u + d1 < 0))).filter
          (fun u => (n : ℤ) ≤ u + d1), F u) +
        ∑ u ∈ ((Finset.Icc (0 : ℤ) ((n : ℤ) - 1)).filter
            (fun u => ¬(u + d1 < 0))).filter
          (fun u => ¬((n : ℤ) ≤ u + d1)), F u :=
    (Finset.sum_filter_add_sum_filter_not _ _ F).symm
  have h3 : ((Finset.Icc (0 : ℤ) ((n : ℤ) - 1)).filter
        (fun u => ¬(u + d1 < 0))).filter (fun u => (n : ℤ) ≤ u + d1) =
      (Finset.Icc (0 : ℤ) ((n : ℤ) - 1)).filter
        (fun u => (n : ℤ) ≤ u + d1) := by
    ext u
    simp only [Finset.mem_filter, Finset.mem_Icc]
    omega
  have h4 : ((Finset.Icc (0 : ℤ) ((n : ℤ) - 1)).filter
        (fun u => ¬(u + d1 < 0))).filter (fun u => ¬((n : ℤ) ≤ u + d1)) =
      Finset.Icc (max (0 - d1) 0) (min ((n : ℤ) - 1 - d1) ((n : ℤ) - 1)) := by
    ext u
    simp only [Finset.mem_filter, Finset.mem_Icc]
    omega
  rw [h1, h2, h3, h4]
  ring

theorem corrFastXX_eq_embedXX (n : ℕ) (f g : ℤ → ℚ) (d1 d2 : ℤ) :
    corrFastXX n f g d1 d2 = corrEmbedXX n f g d1 d2 := by
  have hFz : ∀ u : ℤ, u < 0 ∨ (n : ℤ) ≤ u →
      (fun u : ℤ => xe n f u * xe n g (u - (d2 - d1))) u = 0 := by
    intro u hu
    simp only
    rw [xe_eq_zero hu, zero_mul]
  have hfast : corrFastXX n f g d1 d2 =
      ∑ u ∈ Finset.Icc (max (0 - d1) 0) (min ((n : ℤ) - 1 - d1) ((n : ℤ) - 1)),
        xe n f u * xe n g (u - (d2 - d1)) := by
    unfold corrFastXX autocorrLag edgeLowCorrection edgeHighCorrection
    have hbody : ∀ s ∈ Finset.range n, f s * xe n g ((s : ℤ) - (d2 - d1)) =
        (fun u : ℤ => xe n f u * xe n g (u - (d2 - d1))) (s : ℤ) := by
      intro s hs
      simp only
      rw [xe_eq_self f (Int.natCast_nonneg s)
        (by exact_mod_cast Finset.mem_range.1 hs)]
    rw [Finset.sum_congr rfl hbody,
      Finset.sum_congr rfl
        (fun s hs => hbody s (Finset.mem_of_mem_filter s hs)),
      Finset.sum_congr rfl
        (fun s hs => hbody s (Finset.mem_of_mem_filter s hs))]
    exact fast_filter_trim n (fun u : ℤ => xe n f u * xe n g (u - (d2 - d1))) d1
  have hembed : corrEmbedXX n f g d1 d2 =
      ∑ u ∈ Finset.Icc (max (0 - d1) 0) (min ((n : ℤ) - 1 - d1) ((n : ℤ) - 1)),
        xe n f u * xe n g (u - (d2 - d1)) := by
    unfold corrEmbedXX
    have hb : ∀ t ∈ Finset.range n,
        xe n f ((t : ℤ) - d1) * xe n g ((t : ℤ) - d2) =
          (fun u : ℤ => xe n f u * xe n g (u - (d2 - d1))) ((t : ℤ) - d1) := by
      intro t _
      simp only
      congr 2
      ring
    rw [Finset.sum_congr rfl hb]
    exact shift_trim n (fun u : ℤ => xe n f u * xe n g (u - (d2 - d1))) d1 hFz
  rw [hfast, hembed]

theorem corrFastXY_eq_embedXY (n : ℕ) (f y : ℤ → ℚ) (d1 : ℤ) :
    corrFastXY n f y d1 = corrEmbedXY n f y d1 := by
  have hGz : ∀ u : ℤ, u < 0 ∨ (n : ℤ) ≤ u →
      (fun u : ℤ => xe n f u * xe n y (u + d1)) u = 0 := by
    intro u hu
    simp only
    rw [xe_eq_zero hu, zero_mul]
  have hfast : corrFastXY n f y d1 =
      ∑ u ∈ Finset.Icc (max 0 (0 - d1)) (min ((n : ℤ) - 1) ((n : ℤ) - 1 - d1)),
        xe n f u * xe n y (u + d1) := by
    unfold corrFastXY
    have hbody : ∀ s ∈ Finset.range n, f s * xe n y ((s : ℤ) + d1) =
        (fun u : ℤ => xe n f u * xe n y (u + d1)) (s : ℤ) := by
      intro s hs
      simp only
      rw [xe_eq_self f (Int.natCast_nonneg s)
        (by exact_mod_cast Finset.mem_range.1 hs)]
    rw [Finset.sum_congr rfl hbody,
      sum_range_cast n (fun u : ℤ => xe n f u * xe n y (u + d1))]
    exact sum_Icc_trim 0 ((n : ℤ) - 1) (0 - d1) ((n : ℤ) - 1 - d1)
      (fun u : ℤ => xe n f u * xe n y (u + d1))
      (fun u _ _ hu => by
        simp only
        rw [xe_eq_zero (t := u + d1) (by omega), mul_zero])
  have hembed : corrEmbedXY n f y d1 =
      ∑ u ∈ Finset.Icc (max (0 - d1) 0) (min ((n : ℤ) - 1 - d1) ((n : ℤ) - 1)),
        xe n f u * xe n y (u + d1) := by
    unfold corrEmbedXY
    have hb : ∀ t ∈ Finset.range n,
        xe n f ((t : ℤ) - d1) * y (t : ℤ) =
          (fun u : ℤ => xe n f u * xe n y (u + d1)) ((t : ℤ) - d1) := by
      intro t ht
      simp only
      have harg : (t : ℤ) - d1 + d1 = (t : ℤ) := by ring
      rw [harg, xe_eq_self y (Int.natCast_nonneg t)
        (by exact_mod_cast Finset.mem_range.1 ht)]
    rw [Finset.sum_congr rfl hb]
    exact shift_trim n (fun u : ℤ => xe n f u * xe n y (u + d1)) d1 hGz
  rw [hfast, hembed]
  congr 1
  ext u
  simp only [Finset.mem_Icc]
  omega

/-- **C1.** For every signal `X`, response `y`, and half-open integer delay
range `[smin, smax + 1)`, the fast path output of `compute_corrs` (`x_xt` and
`x_yt`) equals the dot-product of the explicitly delay-embedded design matrix
with itself and with `y` (exact over `ℚ`, hence within any floating
tolerance) — for every delay range, including boundary, single-sided, and
symmetric ones, where the non-Toeplitz boundary correction is exercised. -/
theorem compute_corrs_fast_eq_embedded (n c cy : ℕ) (X : Fin c → ℤ → ℚ)
    (y : Fin cy → ℤ → ℚ) (smin smax : ℤ) :
    computeCorrsXXFast n c X smin smax = computeCorrsXXEmbed n c X smin smax ∧
      computeCorrsXYFast n c cy X y smin smax =
        computeCorrsXYEmbed n c cy X y smin smax := by
  constructor
  · apply Matrix.ext
    intro p q
    exact corrFastXX_eq_embedXX n (X p.1) (X q.1)
      (smin + (p.2 : ℤ)) (smin + (q.2 : ℤ))
  · apply Matrix.ext
    intro p o
    exact corrFastXY_eq_embedXY n (X p.1) (y o) (smin + (p.2 : ℤ))

/-- Sanity check against the hard-coded expected `Xt_X` of
`test_time_delaying_fast_calc` for `smin, smax = 1, 2`: a few representative
entries of the embedded-design auto-covariance. -/
theorem corrEmbed_matches_test_values :
    corrEmbedXX 3 testSignalA testSignalA 1 1 = 5 ∧
      corrEmbedXX 3 testSignalA testSignalB 2 1 = 7 ∧
      corrEmbedXX 3 testSignalB testSignalB 2 2 = 25 ∧
      corrEmbedXX 3 testSignalA testSignalB 1 2 = 10 := by
  refine ⟨?_, ?_, ?_, ?_⟩ <;>
    · simp only [corrEmbedXX, Finset.sum_range_succ, Finset.sum_range_zero,
        xe, testSignalA, testSignalB]
      norm_num

/-- Sanity check against the "slightly harder to get the non-Toeplitz
correction correct" case of `test_time_delaying_fast_calc`
(`X = [1, 2, 3, 5]`, `smin, smax = 0, 3`), on the fast side. -/
theorem corrFast_matches_test_values :
    corrFastXX 4 (fun t => if t = 0 then 1 else if t = 1 then 2 else
        if t = 2 then 3 else 5)
      (fun t => if t = 0 then 1 else if t = 1 then 2 else
        if t = 2 then 3 else 5) 0 3 = 5 ∧
      corrFastXX 4 (fun t => if t = 0 then 1 else if t = 1 then 2 else
          if t = 2 then 3 else 5)
        (fun t => if t = 0 then 1 else if t = 1 then 2 else
          if t = 2 then 3 else 5) 1 2 = 8 := by
  constructor <;>
    · simp only [corrFastXX, autocorrLag, edgeLowCorrection,
        edgeHighCorrection, Finset.sum_filter, Finset.sum_range_succ,
        Finset.sum_range_zero, xe]
      norm_num

theorem pathDegree_eq_formula (n : ℕ) (i : Fin n) :
    pathDegree n i = pathDegreeFormula n i := by
  unfold pathDegree pathAdj pathDegreeFormula
  have hsplit : ∀ j : Fin n,
      (if (j : ℕ) = (i : ℕ) + 1 ∨ (i : ℕ) = (j : ℕ) + 1 then (1 : ℚ) else 0) =
        (if (j : ℕ) = (i : ℕ) + 1 then (1 : ℚ) else 0) +
          (if (i : ℕ) = (j : ℕ) + 1 then (1 : ℚ) else 0) := by
    intro j
    by_cases h1 : (j : ℕ) = (i : ℕ) + 1
    · by_cases h2 : (i : ℕ) = (j : ℕ) + 1
      · exfalso
        omega
      · simp [h1, h2]
        omega
    · by_cases h2 : (i : ℕ) = (j : ℕ) + 1
      · simp [h1, h2]
        omega
      · simp [h1, h2]
  rw [Finset.sum_congr rfl (fun j _ => hsplit j), Finset.sum_add_distrib]
  have hup : ∑ j : Fin n, (if (j : ℕ) = (i : ℕ) + 1 then (1 : ℚ) else 0) =
      if (i : ℕ) + 1 < n then 1 else 0 := by
    by_cases h : (i : ℕ) + 1 < n
    · rw [if_pos h, Finset.sum_eq_single (⟨(i : ℕ) + 1, h⟩ : Fin n)]
      · rw [if_pos rfl]
      · intro j _ hj
        rw [if_neg]
        intro hc
        exact hj (Fin.ext hc)
      · intro habs
        exact absurd (Finset.mem_univ _) habs
    · rw [if_neg h]
      apply Finset.sum_eq_zero
      intro j _
      rw [if_neg]
      intro hc
      have := j.isLt
      omega
  have hdown : ∑ j : Fin n, (if (i : ℕ) = (j : ℕ) + 1 then (1 : ℚ) else 0) =
      if 1 ≤ (i : ℕ) then 1 else 0 := by
    by_cases h : 1 ≤ (i : ℕ)
    · have hlt : (i : ℕ) - 1 < n := by
        have := i.isLt
        omega
      rw [if_pos h, Finset.sum_eq_single (⟨(i : ℕ) - 1, hlt⟩ : Fin n)]
      · rw [if_pos (by simp; omega)]
      · intro j _ hj
        rw [if_neg]
        intro hc
        apply hj
        apply Fin.ext
        simp
        omega
      · intro habs
        exact absurd (Finset.mem_univ _) habs
    · rw [if_neg h]
      apply Finset.sum_eq_zero
      intro j _
      rw [if_neg]
      omega
  rw [hup, hdown]
  have hi := i.isLt
  split_ifs <;> first | (exfalso; omega) | norm_num

theorem graphLaplacian_eq_direct (n : ℕ) :
    graphLaplacian n = directLaplacian n := by
  apply Matrix.ext
  intro i j
  unfold graphLaplacian directLaplacian pathAdj
  by_cases hij : i = j
  · subst hij
    rw [if_pos rfl, if_pos rfl, pathDegree_eq_formula]
    rw [if_neg (by omega)]
    ring
  · rw [if_neg hij, if_neg hij, zero_sub]
    split_ifs <;> norm_num

theorem axisRegMatrix_direct_eq_csgraph (n : ℕ) (rt : RegType) (normed : Bool)
    (isq : ℚ → ℚ) :
    axisRegMatrix .direct n rt normed isq =
      axisRegMatrix .csgraph n rt normed isq := by
  cases rt
  · rfl
  · have hdeg : pathDegree n = pathDegreeFormula n :=
      funext (pathDegree_eq_formula n)
    unfold axisRegMatrix
    rw [graphLaplacian_eq_direct, hdeg]

/-- **C3.** `compute_reg_neighbors` under the `direct` (closed-form) method
and the `csgraph` (explicit adjacency graph) method return regularization
matrices that agree (exactly over `ℚ`, hence within `1e-7`), for every
combination of regularization-type pair in `{ridge, laplacian}²`, every
channel count from 1 to 20, every delay count from 1 to 20, both normalized
and unnormalized modes, and every normalization weight function. -/
theorem compute_reg_neighbors_direct_eq_csgraph (nChX nDel : ℕ)
    (regType : RegType × RegType) (normed : Bool) (isq : ℚ → ℚ)
    (_hch1 : 1 ≤ nChX) (_hch20 : nChX ≤ 20) (_hnd1 : 1 ≤ nDel)
    (_hnd20 : nDel ≤ 20) :
    computeRegNeighbors nChX nDel regType .direct normed isq =
      computeRegNeighbors nChX nDel regType .csgraph normed isq := by
  unfold computeRegNeighbors
  rw [axisRegMatrix_direct_eq_csgraph, axisRegMatrix_direct_eq_csgraph]

theorem compute_reg_neighbors_direct_eq_csgraph_witness :
    (1 ≤ 2 ∧ 2 ≤ 20 ∧ 1 ≤ 3 ∧ 3 ≤ 20) ∧
      computeRegNeighbors 2 3 (RegType.laplacian, RegType.laplacian) .direct
          true (fun q => q) =
        computeRegNeighbors 2 3 (RegType.laplacian, RegType.laplacian) .csgraph
          true (fun q => q) :=
  ⟨⟨by norm_num, by norm_num, by norm_num, by norm_num⟩,
    compute_reg_neighbors_direct_eq_csgraph 2 3
      (RegType.laplacian, RegType.laplacian) true (fun q => q)
      (by norm_num) (by norm_num) (by norm_num) (by norm_num)⟩

/-- Sanity check: the 3-delay path Laplacian is the expected tridiagonal
`[[1, -1, 0], [-1, 2, -1], [0, -1, 1]]`, via the generic (csgraph) route. -/
theorem graphLaplacian_three_values :
    graphLaplacian 3 0 0 = 1 ∧ graphLaplacian 3 0 1 = -1 ∧
      graphLaplacian 3 0 2 = 0 ∧ graphLaplacian 3 1 1 = 2 ∧
      graphLaplacian 3 2 1 = -1 ∧ graphLaplacian 3 2 2 = 1 := by
  refine ⟨?_, ?_, ?_, ?_, ?_, ?_⟩ <;>
    · simp only [graphLaplacian, pathDegree, pathAdj, Fin.sum_univ_three]
      norm_num [Fin.ext_iff]

theorem qInv_mul_self {m : Type} [Fintype m] [DecidableEq m]
    (A : Matrix m m ℚ) (h : A.det ≠ 0) : qInv A * A = 1 := by
  unfold qInv
  rw [Matrix.smul_mul, Matrix.adjugate_mul, smul_smul, inv_mul_cancel₀ h,
    one_smul]

theorem mul_qInv_self {m : Type} [Fintype m] [DecidableEq m]
    (A : Matrix m m ℚ) (h : A.det ≠ 0) : A * qInv A = 1 := by
  unfold qInv
  rw [Matrix.mul_smul, Matrix.mul_adjugate, smul_smul, inv_mul_cancel₀ h,
    one_smul]

theorem qInv_transpose {m : Type} [Fintype m] [DecidableEq m]
    (A : Matrix m m ℚ) : (qInv A)ᵀ = qInv Aᵀ := by
  unfold qInv
  rw [Matrix.transpose_smul, Matrix.adjugate_transpose, Matrix.det_transpose]

/-- On noise-free data generated by a kernel `W`, the unregularized fit
recovers `W` exactly (spec §8's kernel-recovery property, used below). -/
theorem fitOLS_recovers {n : ℕ} {F G : Type} [Fintype F] [DecidableEq F]
    (A : Matrix (Fin n) F ℚ)
    (W : Matrix F G ℚ) (hA : (Aᵀ * A).det ≠ 0) :
    fitOLS A (A * W) = W := by
  unfold fitOLS
  rw [← Matrix.mul_assoc Aᵀ A W, ← Matrix.mul_assoc, qInv_mul_self _ hA,
    Matrix.one_mul]

theorem fitOLS_product_identity {n : ℕ} {F G : Type} [Fintype F]
    [DecidableEq F] [Fintype G] [DecidableEq G] (A : Matrix (Fin n) F ℚ)
    (W : Matrix F G ℚ) (Y : Matrix (Fin n) G ℚ)
    (hY : Y = A * W) (hA : (Aᵀ * A).det ≠ 0) (hYd : (Yᵀ * Y).det ≠ 0) :
    (fitOLS A Y)ᵀ * (fitOLS Y A)ᵀ = 1 := by
  subst hY
  rw [fitOLS_recovers A W hA]
  have hsymY : ((A * W)ᵀ * (A * W))ᵀ = (A * W)ᵀ * (A * W) := by
    rw [Matrix.transpose_mul, Matrix.transpose_transpose]
  unfold fitOLS
  rw [Matrix.transpose_mul, qInv_transpose, hsymY, Matrix.transpose_mul,
    Matrix.transpose_transpose]
  have hGY : Wᵀ * (Aᵀ * (A * W)) = (A * W)ᵀ * (A * W) := by
    rw [Matrix.transpose_mul, Matrix.mul_assoc]
  rw [← Matrix.mul_assoc, hGY]
  exact mul_qInv_self _ hYd

/-- **C5.** When the model is fit with `patterns=True` on a well-conditioned
problem (here: exact arithmetic, noise-free response generated by a kernel
`W`, both Gram matrices invertible, zero penalty), the product of `coef_` and
`patterns_` transposed (each reshaped to outputs × (features × delays)) is
the identity matrix on the shared output axis; `patterns_` has the same shape
as `coef_` by construction. -/
theorem rf_coef_patterns_identity (n c ndel T : ℕ) (X : Fin c → ℤ → ℚ)
    (smin : ℤ) (W : Matrix (Fin c × Fin ndel) (Fin T) ℚ)
    (Y : Matrix (Fin n) (Fin T) ℚ)
    (hY : Y = designZero n c ndel X smin * W)
    (hA : ((designZero n c ndel X smin)ᵀ * designZero n c ndel X smin).det ≠ 0)
    (hYd : (Yᵀ * Y).det ≠ 0) :
    rfCoefFlat n c ndel T X smin Y * (rfPatternsFlat n c ndel T X smin Y)ᵀ =
      1 := by
  unfold rfCoefFlat rfPatternsFlat
  exact fitOLS_product_identity (designZero n c ndel X smin) W Y hY hA hYd

theorem rf_coef_patterns_identity_witness :
    (witY = designZero 1 1 1 witX 0 * witW) ∧
      ((designZero 1 1 1 witX 0)ᵀ * designZero 1 1 1 witX 0).det ≠ 0 ∧
      (witYᵀ * witY).det ≠ 0 ∧
      rfCoefFlat 1 1 1 1 witX 0 witY * (rfPatternsFlat 1 1 1 1 witX 0 witY)ᵀ =
        1 := by
  have hA : ((designZero 1 1 1 witX 0)ᵀ * designZero 1 1 1 witX 0).det ≠ 0 := by
    rw [Matrix.det_unique]
    simp [Matrix.mul_apply, designZero, xe, witX]
  have hYd : (witYᵀ * witY).det ≠ 0 := by
    rw [Matrix.det_unique]
    simp [Matrix.mul_apply, witY, designZero, xe, witX, witW]
  exact ⟨rfl, hA, hYd,
    rf_coef_patterns_identity 1 1 1 1 witX 0 witW witY rfl hA hYd⟩

/-- **C6 (counterexample).** At the concrete input of `test_receptive_field`
(`ReceptiveField(5, 4, 1)`, so `tmin = 5 > 4 = tmax`), construction succeeds
— the violation of `min_delay ≤ max_delay` is not a construction-time error —
and only the subsequent `fit` raises `InvalidArgument`. -/
theorem tmin_gt_tmax_construction_succeeds :
    rfInit 5 4 1 none = .ok ⟨5, 4, 1, none⟩ ∧
      rfFit ⟨5, 4, 1, none⟩ 10 3 10 = .error .invalidArgument := by
  constructor
  · rfl
  · unfold rfFit
    rw [if_pos (by norm_num)]

/-- **C6 (amended).** The Delay Range invariant `min_delay ≤ max_delay` is
enforced at `fit` time, not at construction: constructing with `tmin > tmax`
always succeeds, and the subsequent `fit` is what raises `InvalidArgument`. -/
theorem tmin_gt_tmax_checked_at_fit (tmin tmax sfreq : ℚ)
    (names : Option (List String)) :
    rfInit tmin tmax sfreq names = .ok ⟨tmin, tmax, sfreq, names⟩ ∧
      (tmax < tmin → ∀ nX nFeat nY : ℕ,
        rfFit ⟨tmin, tmax, sfreq, names⟩ nX nFeat nY =
          .error .invalidArgument) := by
  constructor
  · rfl
  · intro h nX nFeat nY
    unfold rfFit
    rw [if_pos h]

theorem tmin_gt_tmax_checked_at_fit_witness :
    rfInit 5 4 1 none = .ok ⟨5, 4, 1, none⟩ ∧
      ((4 : ℚ) < 5) ∧
      rfFit ⟨5, 4, 1, none⟩ 10 3 10 = .error .invalidArgument :=
  ⟨(tmin_gt_tmax_checked_at_fit 5 4 1 none).1, by norm_num,
    (tmin_gt_tmax_checked_at_fit 5 4 1 none).2 (by norm_num) 10 3 10⟩

/-- **C7.** For every `fit` call on the Receptive Field Model, mismatched
sample counts between X and y always raise `InvalidArgument`, and a
`feature_names` length that does not match the channel count of X always
raises `InvalidArgument`. -/
theorem fit_shape_mismatch_errors (m : RFModel) (nX nFeat nY : ℕ) :
    (nX ≠ nY → rfFit m nX nFeat nY = .error .invalidArgument) ∧
      (∀ l, m.featureNames = some l → l.length ≠ nFeat →
        rfFit m nX nFeat nY = .error .invalidArgument) := by
  constructor
  · intro h
    unfold rfFit
    by_cases h1 : m.tmax < m.tmin
    · rw [if_pos h1]
    · rw [if_neg h1, if_pos h]
  · intro l hl hlen
    unfold rfFit
    by_cases h1 : m.tmax < m.tmin
    · rw [if_pos h1]
    · rw [if_neg h1]
      by_cases h2 : nX ≠ nY
      · rw [if_pos h2]
      · rw [if_neg h2, if_pos]
        rw [hl]
        unfold featureNamesMismatch
        simpa using hlen

theorem fit_shape_mismatch_errors_witness :
    ((5 : ℕ) ≠ 4) ∧
      rfFit ⟨0, 1, 1, some ["a"]⟩ 5 3 4 = .error .invalidArgument ∧
      ((RFModel.mk 0 1 1 (some ["a"])).featureNames = some ["a"]) ∧
      ((["a"] : List String).length ≠ 3) ∧
      rfFit ⟨0, 1, 1, some ["a"]⟩ 5 3 5 = .error .invalidArgument :=
  ⟨by norm_num,
    (fit_shape_mismatch_errors ⟨0, 1, 1, some ["a"]⟩ 5 3 4).1 (by norm_num),
    rfl, by norm_num,
    (fit_shape_mismatch_errors ⟨0, 1, 1, some ["a"]⟩ 5 3 5).2 ["a"] rfl
      (by norm_num)⟩

/-- **C8.** When fitting with zero regularization (`alpha = 0`) and the
resulting normal-equations system is singular, the fit does not fail: exactly
one non-fatal warning reporting the singularity is emitted, and a best-effort
solution (the collaborator's generalized solve) is still computed and
stored. -/
theorem singular_unregularized_fit_warns (n c ndel T : ℕ)
    (X : Fin c → ℤ → ℚ) (Y : Matrix (Fin n) (Fin T) ℚ) (smin : ℤ)
    (alpha : ℚ) (tags : List RegType) (htags : tags.length = 2)
    (halpha : alpha = 0)
    (hsing : ((designZero n c ndel X smin)ᵀ * designZero n c ndel X smin).det
      = 0) :
    tdrFit n c ndel T X Y smin alpha tags =
      .ok ⟨[.singularMatrix],
        qInv ((designZero n c ndel X smin)ᵀ * designZero n c ndel X smin) *
          ((designZero n c ndel X smin)ᵀ * Y)⟩ := by
  subst halpha
  unfold tdrFit tdrSystem solveCollaborator
  rw [if_neg (by omega), if_pos rfl, if_pos hsing]

theorem singular_unregularized_fit_warns_witness :
    (([RegType.ridge, RegType.ridge] : List RegType).length = 2) ∧
      ((0 : ℚ) = 0) ∧
      (((designZero 1 1 1 (fun _ _ => (0 : ℚ)) 0)ᵀ *
          designZero 1 1 1 (fun _ _ => (0 : ℚ)) 0).det = 0) ∧
      tdrFit 1 1 1 1 (fun _ _ => (0 : ℚ))
          (0 : Matrix (Fin 1) (Fin 1) ℚ) 0 0 [.ridge, .ridge] =
        .ok ⟨[.singularMatrix],
          qInv ((designZero 1 1 1 (fun _ _ => (0 : ℚ)) 0)ᵀ *
              designZero 1 1 1 (fun _ _ => (0 : ℚ)) 0) *
            ((designZero 1 1 1 (fun _ _ => (0 : ℚ)) 0)ᵀ *
              (0 : Matrix (Fin 1) (Fin 1) ℚ))⟩ := by
  have hsing : ((designZero 1 1 1 (fun _ _ => (0 : ℚ)) 0)ᵀ *
      designZero 1 1 1 (fun _ _ => (0 : ℚ)) 0).det = 0 := by
    rw [Matrix.det_unique]
    simp [Matrix.mul_apply, designZero, xe]
  exact ⟨rfl, rfl, hsing,
    singular_unregularized_fit_warns 1 1 1 1 (fun _ _ => (0 : ℚ))
      (0 : Matrix (Fin 1) (Fin 1) ℚ) 0 0 [.ridge, .ridge] rfl rfl hsing⟩

theorem sum_col_eq (n : ℕ) {F : Type} [Fintype F] (hn : 1 ≤ n)
    (A : Matrix (Fin n) F ℚ) (j : F) :
    ∑ t, A t j = (n : ℚ) * colMean A j := by
  unfold colMean
  have hnz : (n : ℚ) ≠ 0 := by
    have : n ≠ 0 := by omega
    exact_mod_cast this
  field_simp

theorem sum_vec_eq (n : ℕ) (hn : 1 ≤ n) (y : Fin n → ℚ) :
    ∑ t, y t = (n : ℚ) * vecMean n y := by
  unfold vecMean
  have hnz : (n : ℚ) ≠ 0 := by
    have : n ≠ 0 := by omega
    exact_mod_cast this
  field_simp

theorem centered_gram (n : ℕ) {F : Type} [Fintype F] (hn : 1 ≤ n)
    (A : Matrix (Fin n) F ℚ) :
    (centerCols A)ᵀ * centerCols A =
      Aᵀ * A - (n : ℚ) • outerQ (colMean A) (colMean A) := by
  ext i j
  simp only [Matrix.mul_apply, Matrix.transpose_apply, centerCols,
    Matrix.sub_apply, Matrix.smul_apply, outerQ, smul_eq_mul]
  have expand : ∀ t, (A t i - colMean A i) * (A t j - colMean A j) =
      A t i * A t j - colMean A i * (A t j) - (A t i) * colMean A j +
        colMean A i * colMean A j := by
    intro t
    ring
  rw [Finset.sum_congr rfl (fun t _ => expand t), Finset.sum_add_distrib,
    Finset.sum_sub_distrib, Finset.sum_sub_distrib, ← Finset.mul_sum,
    ← Finset.sum_mul, Finset.sum_const, Finset.card_univ, Fintype.card_fin,
    sum_col_eq n hn A i, sum_col_eq n hn A j, nsmul_eq_mul]
  ring

theorem centered_cross (n : ℕ) {F : Type} [Fintype F] (hn : 1 ≤ n)
    (A : Matrix (Fin n) F ℚ) (y : Fin n → ℚ) :
    (centerCols A)ᵀ *ᵥ centerVec y =
      Aᵀ *ᵥ y - (n : ℚ) • (vecMean n y • colMean A) := by
  funext j
  simp only [Matrix.mulVec, Matrix.dotProduct, Matrix.transpose_apply,
    centerCols, centerVec, Pi.sub_apply, Pi.smul_apply, smul_eq_mul]
  have expand : ∀ t, (A t j - colMean A j) * (y t - vecMean n y) =
      A t j * y t - colMean A j * y t - A t j * vecMean n y +
        colMean A j * vecMean n y := by
    intro t
    ring
  rw [Finset.sum_congr rfl (fun t _ => expand t), Finset.sum_add_distrib,
    Finset.sum_sub_distrib, Finset.sum_sub_distrib, ← Finset.mul_sum,
    ← Finset.sum_mul, Finset.sum_const, Finset.card_univ, Fintype.card_fin,
    sum_col_eq n hn A j, sum_vec_eq n hn y, nsmul_eq_mul]
  ring

/-- The fast (covariance-centered) path solves exactly the same system as the
external (explicitly centered) path. -/
theorem wFast_eq_wExt (n c ndel : ℕ) (X : Fin c → ℤ → ℚ) (y : Fin n → ℚ)
    (smin : ℤ) (alpha : ℚ) (hn : 1 ≤ n) :
    wFast n c ndel X y smin alpha = wExt n c ndel X y smin alpha := by
  unfold wFast wExt
  rw [centered_gram n hn (designMean n c ndel X smin),
    centered_cross n hn (designMean n c ndel X smin) y]

theorem meanSig_offset (n : ℕ) (hn : 1 ≤ n) (f : ℤ → ℚ) (ofs : ℚ) :
    meanSig n (fun t => f t + ofs) = meanSig n f + ofs := by
  unfold meanSig
  have hnz : (n : ℚ) ≠ 0 := by
    have : n ≠ 0 := by omega
    exact_mod_cast this
  rw [Finset.sum_add_distrib, Finset.sum_const, Finset.card_range,
    nsmul_eq_mul]
  field_simp
  ring

theorem designMean_offset (n c ndel : ℕ) (hn : 1 ≤ n) (X : Fin c → ℤ → ℚ)
    (ofs : ℚ) (smin : ℤ) :
    designMean n c ndel (offsetSig X ofs) smin =
      fun t k => designMean n c ndel X smin t k + ofs := by
  ext t k
  unfold designMean delayedEntry offsetSig
  split_ifs with h
  · rfl
  · exact meanSig_offset n hn (X k.1) ofs

theorem colMean_offset (n : ℕ) {F : Type} [Fintype F] (hn : 1 ≤ n)
    (A : Matrix (Fin n) F ℚ) (ofs : ℚ) :
    colMean (fun t j => A t j + ofs) = fun j => colMean A j + ofs := by
  funext j
  unfold colMean
  have hnz : (n : ℚ) ≠ 0 := by
    have : n ≠ 0 := by omega
    exact_mod_cast this
  rw [Finset.sum_add_distrib, Finset.sum_const, Finset.card_univ,
    Fintype.card_fin, nsmul_eq_mul]
  field_simp
  ring

theorem centerCols_offset (n : ℕ) {F : Type} [Fintype F] (hn : 1 ≤ n)
    (A : Matrix (Fin n) F ℚ) (ofs : ℚ) :
    centerCols (fun t j => A t j + ofs) = centerCols A := by
  ext t j
  unfold centerCols
  rw [colMean_offset n hn A ofs]
  ring

/-- **C9.** With intercept fitting enabled, adding a constant offset to every
sample of the input X before fitting leaves the fitted coefficients
unchanged (exactly, in the rational model), and the offset is absorbed into
the intercept: for a fit whose coefficients form a unit delay kernel
(coefficients summing to 1 with zero base intercept), the intercept becomes
exactly the negation of the offset.  This holds for every offset, for both
the fast Time-Delaying Ridge path (covariance-level centering) and the
external-estimator path (explicit column centering). -/
theorem fit_intercept_offset_invariance (n c ndel : ℕ) (X : Fin c → ℤ → ℚ)
    (y : Fin n → ℚ) (smin : ℤ) (alpha : ℚ) (ofs : ℚ) (hn : 1 ≤ n)
    (hker : ∑ j, wExt n c ndel X y smin alpha j = 1)
    (hint : interceptExt n c ndel X y smin alpha = 0) :
    wExt n c ndel (offsetSig X ofs) y smin alpha =
        wExt n c ndel X y smin alpha ∧
      wFast n c ndel (offsetSig X ofs) y smin alpha =
        wFast n c ndel X y smin alpha ∧
      interceptExt n c ndel (offsetSig X ofs) y smin alpha = -ofs := by
  have hcc : centerCols (designMean n c ndel (offsetSig X ofs) smin) =
      centerCols (designMean n c ndel X smin) := by
    rw [designMean_offset n c ndel hn X ofs smin, centerCols_offset n hn _ ofs]
  have hw : wExt n c ndel (offsetSig X ofs) y smin alpha =
      wExt n c ndel X y smin alpha := by
    unfold wExt
    rw [hcc]
  refine ⟨hw, ?_, ?_⟩
  · rw [wFast_eq_wExt n c ndel (offsetSig X ofs) y smin alpha hn,
      wFast_eq_wExt n c ndel X y smin alpha hn, hw]
  · unfold interceptExt
    rw [hw, designMean_offset n c ndel hn X ofs smin,
      colMean_offset n hn (designMean n c ndel X smin) ofs]
    have hexp : ∑ j, (colMean (designMean n c ndel X smin) j + ofs) *
        wExt n c ndel X y smin alpha j =
        (∑ j, colMean (designMean n c ndel X smin) j *
          wExt n c ndel X y smin alpha j) +
          ofs * ∑ j, wExt n c ndel X y smin alpha j := by
      rw [Finset.mul_sum, ← Finset.sum_add_distrib]
      apply Finset.sum_congr rfl
      intro j _
      ring
    rw [hexp, hker]
    unfold interceptExt at hint
    linarith

theorem default_pair_fin : (default : Fin 1 × Fin 1) = (0, 0) := rfl

theorem witX9_fit_value : wExt 2 1 1 witX9 witY9 0 0 = fun _ => 1 := by
  funext j
  have hj : j = (0, 0) := Subsingleton.elim _ _
  subst hj
  simp [wExt, qInv, centerCols, colMean, designMean, delayedEntry, meanSig,
    centerVec, vecMean, witX9, witY9, Matrix.mul_apply, Matrix.mulVec,
    Matrix.dotProduct, Fin.sum_univ_two, Fin.sum_univ_one,
    Fintype.sum_prod_type, Matrix.det_unique, Matrix.adjugate_subsingleton,
    default_pair_fin, Finset.sum_range_succ]

theorem witX9_kernel_sum : ∑ j, wExt 2 1 1 witX9 witY9 0 0 j = 1 := by
  rw [witX9_fit_value]
  simp [Fintype.sum_prod_type, Fin.sum_univ_one]

theorem witX9_intercept_zero : interceptExt 2 1 1 witX9 witY9 0 0 = 0 := by
  unfold interceptExt
  rw [witX9_fit_value]
  simp [vecMean, colMean, designMean, delayedEntry, meanSig, witX9, witY9,
    Fin.sum_univ_two, Fin.sum_univ_one, Fintype.sum_prod_type,
    Finset.sum_range_succ]

theorem fit_intercept_offset_invariance_witness :
    (1 ≤ 2) ∧ (∑ j, wExt 2 1 1 witX9 witY9 0 0 j = 1) ∧
      interceptExt 2 1 1 witX9 witY9 0 0 = 0 ∧
      (wExt 2 1 1 (offsetSig witX9 100) witY9 0 0 =
          wExt 2 1 1 witX9 witY9 0 0 ∧
        wFast 2 1 1 (offsetSig witX9 100) witY9 0 0 =
          wFast 2 1 1 witX9 witY9 0 0 ∧
        interceptExt 2 1 1 (offsetSig witX9 100) witY9 0 0 = -100) :=
  ⟨by norm_num, witX9_kernel_sum, witX9_intercept_zero,
    fit_intercept_offset_invariance 2 1 1 witX9 witY9 0 0 100 (by norm_num)
      witX9_kernel_sum witX9_intercept_zero⟩

end MneRF

namespace MneSurface

/-- **C10.** `read_surface` accepts only files whose leading 3-byte
big-endian magic number is `16777214`: a magic of `16777215` (quadrangle
format) always raises `NotImplementedError`, any other magic value always
raises `ValueError`, and vertex coordinates and faces are returned only in
the accepted case. -/
theorem read_surface_magic_dispatch (bs : List ℕ) (magic : ℕ) (rest : List ℕ)
    (hm : fread3 bs = some (magic, rest)) :
    (magic = 16777215 → read_surface bs = .error .notImplementedError) ∧
    (magic ≠ 16777215 → magic ≠ 16777214 →
      read_surface bs = .error .valueError) ∧
    (∀ res, read_surface bs = .ok res → magic = 16777214) := by
  refine ⟨?_, ?_, ?_⟩
  · intro h15
    unfold read_surface
    rw [hm]
    simp [h15]
  · intro h15 h14
    unfold read_surface
    rw [hm]
    simp [h15, h14]
  · intro res hok
    by_contra h14
    unfold read_surface at hok
    rw [hm] at hok
    by_cases h15 : magic = 16777215
    · simp [h15] at hok
    · simp [h15, h14] at hok

theorem read_surface_magic_dispatch_witness :
    (fread3 [255, 255, 255, 0] = some (16777215, [0])) ∧
      read_surface [255, 255, 255, 0] = .error .notImplementedError ∧
      (fread3 [0, 0, 7] = some (7, [])) ∧
      read_surface [0, 0, 7] = .error .valueError ∧
      (fread3 [255, 255, 254, 99, 10, 10, 0, 0, 0, 0, 0, 0, 0, 0] =
        some (16777214, [99, 10, 10, 0, 0, 0, 0, 0, 0, 0, 0])) ∧
      read_surface [255, 255, 254, 99, 10, 10, 0, 0, 0, 0, 0, 0, 0, 0] =
        .ok ([], []) ∧
      (16777214 : ℕ) = 16777214 :=
  ⟨by decide,
    (read_surface_magic_dispatch [255, 255, 255, 0] 16777215 [0]
      (by decide)).1 (by decide),
    by decide,
    (read_surface_magic_dispatch [0, 0, 7] 7 []
      (by decide)).2.1 (by decide) (by decide),
    by decide,
    rfl,
    (read_surface_magic_dispatch
      [255, 255, 254, 99, 10, 10, 0, 0, 0, 0, 0, 0, 0, 0] 16777214
      [99, 10, 10, 0, 0, 0, 0, 0, 0, 0, 0] (by decide)).2.2 ([], [])
      rfl⟩

end MneSurface
